import Mathlib

/-!
Verification of the CG RankRLS training engine (`rlscore/learner/cg_rankrls.py`)
against its natural-language specification.

The development shallowly embeds the parts of the code the claims touch:

* `CGRankRLS.setQids` — validation and construction of the query grouping
  (`qidlist`, `qidmap`/`indslist`), including its error behaviour;
* `CGRankRLS.loadResources` — the label / preference-pair configuration checks;
* the matrix-free linear operators of `trainWithLabels` / `trainWithPreferences`
  (the `mv` closures), embedded as real-matrix computations;
* `EarlyStopCB.callback` together with the callback-driven iteration loop of
  the conjugate-gradient solver (the `Finished`-exception control flow of the
  original is modelled as an explicit stop signal).

Python integers become `Int`/`Nat`, floats in the discrete control logic become
`ℚ` (only ordering and equality of performance values matter there), and the
numerical linear algebra is embedded over `ℝ` (the `1/sqrt(qsize)` weights of
the projection matrix are genuinely irrational).  Exceptions become `Except`.
-/

namespace CGRankRLS

/-- One pass of the inner loop of `CGRankRLS.setQids` over a single query
`qids[i]`: for each listed index `j`, raise if `j >= self.size`, raise if
`j < 0`, and otherwise execute `self.qidlist[j] = i`.  `ql` is the current
`qidlist` (a list of `Int`, initially all `-1`). -/
def assignGroup (size : Nat) (i : Nat) : List Int → List Int → Except String (List Int)
  | [], ql => .ok ql
  | j :: js, ql =>
    if (size : Int) ≤ j then
      .error "Index in query out of training set index bounds"
    else if j < 0 then
      .error "Negative index in query, query indices must be non-negative"
    else
      assignGroup size i js (ql.set j.toNat i)

/-- The outer loop of `CGRankRLS.setQids`: process the queries in order,
`i` being the index of the current query. -/
def assignQids (size : Nat) : List (List Int) → Nat → List Int → Except String (List Int)
  | [], _, ql => .ok ql
  | q :: qs, i, ql =>
    match assignGroup size i q ql with
    | .ok ql₁ => assignQids size qs (i + 1) ql₁
    | .error e => .error e

/-- The distinct qid values occurring in `qidlist`, in order of first
occurrence (the keys of the `qidmap` dictionary built by `setQids`). -/
def qidKeys (ql : List Int) : List Int :=
  ql.foldl (fun ks q => if q ∈ ks then ks else ks ++ [q]) []

/-- The `indslist` built by `setQids`: for each key of `qidmap`, the list of
training indices `i` with `qidlist[i]` equal to that key (indices are appended
in increasing order, exactly as the `for i in range(len(self.qidlist))` loop
does). -/
def buildIndslist (ql : List Int) : List (List Nat) :=
  (qidKeys ql).map (fun q => (List.range ql.length).filter (fun i => ql[i]? == some q))

/-- The data `setQids` leaves on the learner: `self.qidlist` and
`self.indslist`. -/
structure QidInfo where
  qidlist : List Int
  indslist : List (List Nat)
deriving DecidableEq, Repr

/-- The body of `CGRankRLS.setQids(qids)`: initialize `qidlist` to `size` copies of `-1`,
run the assignment loops (which can raise on an out-of-bounds or negative
index), raise if some entry is still `-1`, and otherwise build
`qidmap`/`indslist`. -/
def setQids (size : Nat) (qids : List (List Int)) : Except String QidInfo :=
  match assignQids size qids 0 (List.replicate size (-1)) with
  | .error e => .error e
  | .ok ql =>
    if (-1 : Int) ∈ ql then
      .error "Not all training examples were assigned a query"
    else
      .ok ⟨ql, buildIndslist ql⟩

/-- The index of the last query in `qs` (numbering starting at `i0`) that
contains the sample index `k`; `none` if no query lists `k`.  This is the
value that survives the overwriting `self.qidlist[j] = i` assignments. -/
def lastGroupOf (qs : List (List Int)) (i0 : Nat) (k : Nat) : Option Nat :=
  match qs with
  | [] => none
  | q :: qs' =>
    match lastGroupOf qs' (i0 + 1) k with
    | some g => some g
    | none => if (k : Int) ∈ q then some i0 else none

theorem assignGroup_length {size i : Nat} :
    ∀ {js : List Int} {ql ql₁ : List Int},
      assignGroup size i js ql = .ok ql₁ → ql₁.length = ql.length := by
  intro js
  induction js with
  | nil => intro ql ql₁ h; simp [assignGroup] at h; simp [h]
  | cons j js ih =>
    intro ql ql₁ h
    simp only [assignGroup] at h
    by_cases h1 : (size : Int) ≤ j
    · simp [h1] at h
    · by_cases h2 : j < 0
      · simp [h1, h2] at h
      · simp only [h1, h2, if_false] at h
        have := ih h
        simpa using this

theorem assignGroup_bounds {size i : Nat} :
    ∀ {js : List Int} {ql ql₁ : List Int},
      assignGroup size i js ql = .ok ql₁ →
      ∀ j ∈ js, 0 ≤ j ∧ j < (size : Int) := by
  intro js
  induction js with
  | nil => intro ql ql₁ _ j hj; simp at hj
  | cons j js ih =>
    intro ql ql₁ h j' hj'
    simp only [assignGroup] at h
    by_cases h1 : (size : Int) ≤ j
    · simp [h1] at h
    · by_cases h2 : j < 0
      · simp [h1, h2] at h
      · simp only [h1, h2, if_false] at h
        rcases List.mem_cons.mp hj' with rfl | hmem
        · exact ⟨le_of_not_lt h2, lt_of_not_le h1⟩
        · exact ih h j' hmem

theorem assignGroup_getElem {size i : Nat} :
    ∀ {js : List Int} {ql ql₁ : List Int},
      assignGroup size i js ql = .ok ql₁ →
      ∀ k, k < ql.length →
        ql₁[k]? = if (k : Int) ∈ js then some (i : Int) else ql[k]? := by
  intro js
  induction js with
  | nil => intro ql ql₁ h k _; simp [assignGroup] at h; simp [h]
  | cons j js ih =>
    intro ql ql₁ h k hk
    simp only [assignGroup] at h
    by_cases h1 : (size : Int) ≤ j
    · simp [h1] at h
    · by_cases h2 : j < 0
      · simp [h1, h2] at h
      · simp only [h1, h2, if_false] at h
        have hk' : k < (ql.set j.toNat (i : Int)).length := by simpa using hk
        have hrec := ih h k hk'
        by_cases hkj : (k : Int) = j
        · have hjk : j.toNat = k := by omega
          have hmem' : (k : Int) ∈ j :: js := by simp [hkj]
          rw [hrec, if_pos hmem']
          by_cases hmem : (k : Int) ∈ js
          · rw [if_pos hmem]
          · rw [if_neg hmem, hjk]
            exact List.getElem?_set_self hk
        · have hne : j.toNat ≠ k := by omega
          rw [hrec, List.getElem?_set_ne hne]
          by_cases hmem : (k : Int) ∈ js
          · rw [if_pos hmem, if_pos (List.mem_cons_of_mem _ hmem)]
          · rw [if_neg hmem, if_neg (by simp [hkj, hmem])]

theorem assignQids_length {size : Nat} :
    ∀ {qs : List (List Int)} {i0 : Nat} {ql ql₁ : List Int},
      assignQids size qs i0 ql = .ok ql₁ → ql₁.length = ql.length := by
  intro qs
  induction qs with
  | nil => intro i0 ql ql₁ h; simp [assignQids] at h; simp [h]
  | cons q qs ih =>
    intro i0 ql ql₁ h
    simp only [assignQids] at h
    cases hg : assignGroup size i0 q ql with
    | error e => rw [hg] at h; simp at h
    | ok ql₂ => rw [hg] at h; rw [ih h, assignGroup_length hg]

theorem assignQids_bounds {size : Nat} :
    ∀ {qs : List (List Int)} {i0 : Nat} {ql ql₁ : List Int},
      assignQids size qs i0 ql = .ok ql₁ →
      ∀ q ∈ qs, ∀ j ∈ q, 0 ≤ j ∧ j < (size : Int) := by
  intro qs
  induction qs with
  | nil => intro i0 ql ql₁ _ q hq; simp at hq
  | cons q qs ih =>
    intro i0 ql ql₁ h q' hq'
    simp only [assignQids] at h
    cases hg : assignGroup size i0 q ql with
    | error e => rw [hg] at h; simp at h
    | ok ql₂ =>
      rw [hg] at h
      rcases List.mem_cons.mp hq' with rfl | hmem
      · exact assignGroup_bounds hg
      · exact ih h q' hmem

theorem assignQids_getElem {size : Nat} :
    ∀ {qs : List (List Int)} {i0 : Nat} {ql ql₁ : List Int},
      assignQids size qs i0 ql = .ok ql₁ →
      ∀ k, k < ql.length →
        ql₁[k]? = (lastGroupOf qs i0 k).elim (ql[k]?) (fun g => some ((g : Nat) : Int)) := by
  intro qs
  induction qs with
  | nil => intro i0 ql ql₁ h k _; simp [assignQids] at h; simp [h, lastGroupOf]
  | cons q qs ih =>
    intro i0 ql ql₁ h k hk
    simp only [assignQids] at h
    cases hg : assignGroup size i0 q ql with
    | error e => rw [hg] at h; simp at h
    | ok ql₂ =>
      rw [hg] at h
      have hk₂ : k < ql₂.length := by rw [assignGroup_length hg]; exact hk
      have hrec := ih h k hk₂
      have hset := assignGroup_getElem hg k hk
      simp only [lastGroupOf]
      cases hl : lastGroupOf qs (i0 + 1) k with
      | some g => rw [hl] at hrec; simpa using hrec
      | none =>
        rw [hl] at hrec
        simp only [Option.elim] at hrec ⊢
        rw [hrec, hset]
        by_cases hmem : (k : Int) ∈ q
        · simp [hmem]
        · simp [hmem]

theorem lastGroupOf_eq_none {qs : List (List Int)} {k : Nat} :
    ∀ (i0 : Nat), lastGroupOf qs i0 k = none ↔ ∀ q ∈ qs, (k : Int) ∉ q := by
  induction qs with
  | nil => intro i0; simp [lastGroupOf]
  | cons q qs ih =>
    intro i0
    simp only [lastGroupOf]
    cases hl : lastGroupOf qs (i0 + 1) k with
    | some g =>
      simp only [reduceCtorEq, false_iff]
      intro hall
      have hnone := (ih (i0 + 1)).mpr (fun q' hq' => hall q' (List.mem_cons_of_mem _ hq'))
      rw [hl] at hnone
      exact absurd hnone (by simp)
    | none =>
      have hall := (ih (i0 + 1)).mp hl
      by_cases hmem : (k : Int) ∈ q
      · simp only [hmem, if_pos, reduceCtorEq, false_iff]
        intro hc
        exact absurd hmem (hc q (List.mem_cons_self _ _))
      · simp only [hmem, if_neg, true_iff, not_false_iff]
        intro q' hq'
        rcases List.mem_cons.mp hq' with rfl | h
        · exact hmem
        · exact hall q' h

theorem assignGroup_ok {size i : Nat} :
    ∀ {js : List Int} (ql : List Int), (∀ j ∈ js, 0 ≤ j ∧ j < (size : Int)) →
      ∃ ql₁, assignGroup size i js ql = .ok ql₁ := by
  intro js
  induction js with
  | nil => intro ql _; exact ⟨ql, rfl⟩
  | cons j js ih =>
    intro ql hall
    have hj := hall j (List.mem_cons_self _ _)
    simp only [assignGroup]
    rw [if_neg (by omega), if_neg (by omega)]
    exact ih _ (fun x hx => hall x (List.mem_cons_of_mem _ hx))

theorem assignQids_ok {size : Nat} :
    ∀ {qs : List (List Int)} (i0 : Nat) (ql : List Int),
      (∀ q ∈ qs, ∀ j ∈ q, 0 ≤ j ∧ j < (size : Int)) →
      ∃ ql₁, assignQids size qs i0 ql = .ok ql₁ := by
  intro qs
  induction qs with
  | nil => intro i0 ql _; exact ⟨ql, rfl⟩
  | cons q qs ih =>
    intro i0 ql hall
    obtain ⟨ql₂, hg⟩ := assignGroup_ok ql (hall q (List.mem_cons_self _ _))
    simp only [assignQids]
    rw [hg]
    exact ih (i0 + 1) ql₂ (fun q' hq' => hall q' (List.mem_cons_of_mem _ hq'))

theorem qidKeys_aux_mem (ql : List Int) :
    ∀ (ks : List Int) (q : Int),
      q ∈ ql.foldl (fun ks q => if q ∈ ks then ks else ks ++ [q]) ks ↔ q ∈ ks ∨ q ∈ ql := by
  induction ql with
  | nil => simp
  | cons a ql ih =>
    intro ks q
    simp only [List.foldl_cons]
    by_cases ha : a ∈ ks
    · rw [if_pos ha, ih]
      constructor
      · rintro (h | h)
        · exact Or.inl h
        · exact Or.inr (List.mem_cons_of_mem _ h)
      · rintro (h | h)
        · exact Or.inl h
        · rcases List.mem_cons.mp h with rfl | h
          · exact Or.inl ha
          · exact Or.inr h
    · rw [if_neg ha, ih]
      simp only [List.mem_append, List.mem_singleton, List.mem_cons]
      tauto

theorem qidKeys_aux_nodup (ql : List Int) :
    ∀ ks : List Int, ks.Nodup →
      (ql.foldl (fun ks q => if q ∈ ks then ks else ks ++ [q]) ks).Nodup := by
  induction ql with
  | nil => intro ks h; simpa using h
  | cons a ql ih =>
    intro ks h
    simp only [List.foldl_cons]
    by_cases ha : a ∈ ks
    · rw [if_pos ha]; exact ih ks h
    · rw [if_neg ha]
      refine ih _ (List.nodup_append.mpr ⟨h, List.nodup_singleton a, ?_⟩)
      simpa [List.disjoint_singleton] using ha

theorem qidKeys_mem (ql : List Int) (q : Int) : q ∈ qidKeys ql ↔ q ∈ ql := by
  rw [qidKeys, qidKeys_aux_mem]; simp

theorem qidKeys_nodup (ql : List Int) : (qidKeys ql).Nodup :=
  qidKeys_aux_nodup ql [] (by simp)

theorem buildIndslist_partition (ql : List Int) (k : Nat) (hk : k < ql.length) :
    (buildIndslist ql).countP (fun g => k ∈ g) = 1 := by
  have hv : ql[k]? = some ql[k] := List.getElem?_eq_getElem hk
  unfold buildIndslist
  rw [List.countP_map]
  have hfun : ∀ q ∈ qidKeys ql,
      (((fun g : List Nat => decide (k ∈ g)) ∘
        fun q => (List.range ql.length).filter (fun i => ql[i]? == some q)) q = true
        ↔ ((· == ql[k]) q) = true) := by
    intro q _
    simp only [Function.comp_apply, decide_eq_true_eq, List.mem_filter, List.mem_range,
      beq_iff_eq]
    constructor
    · rintro ⟨-, h2⟩
      have h3 : ql[k]? = some q := by simpa using h2
      rw [hv] at h3
      simpa using h3.symm
    · intro hq
      subst hq
      exact ⟨hk, by simp [hv]⟩
  rw [List.countP_congr hfun]
  have hcnt : (qidKeys ql).countP (· == ql[k]) = (qidKeys ql).count ql[k] := rfl
  rw [hcnt]
  exact List.count_eq_one_of_mem (qidKeys_nodup ql)
    ((qidKeys_mem ql _).mpr (List.getElem_mem hk))

/-- Claim C3: for every query grouping supplied for training, if any listed
index is `≥ size` or negative, or if some training index `k < size` is listed
in no query, then `setQids` raises (returns a configuration error) — and this
happens inside `loadResources`, before any solving step begins. -/
theorem setQids_invalid_input_raises (size : Nat) (qids : List (List Int))
    (h : (∃ q ∈ qids, ∃ j ∈ q, (size : Int) ≤ j ∨ j < 0) ∨
         (∃ k, k < size ∧ ∀ q ∈ qids, (k : Int) ∉ q)) :
    ∃ e, setQids size qids = .error e := by
  cases hset : setQids size qids with
  | error e => exact ⟨e, rfl⟩
  | ok info =>
    exfalso
    unfold setQids at hset
    cases hassign : assignQids size qids 0 (List.replicate size (-1)) with
    | error e => rw [hassign] at hset; simp at hset
    | ok ql =>
      rw [hassign] at hset
      by_cases hmem : (-1 : Int) ∈ ql
      · simp [hmem] at hset
      · rcases h with ⟨q, hq, j, hj, hbad⟩ | ⟨k, hk, hnone⟩
        · have := assignQids_bounds hassign q hq j hj
          omega
        · have hklt : k < (List.replicate size (-1 : Int)).length := by simpa using hk
          have hsem := assignQids_getElem hassign k hklt
          rw [(lastGroupOf_eq_none 0).mpr hnone] at hsem
          simp only [Option.elim, List.getElem?_replicate, hk, if_pos] at hsem
          exact hmem (List.getElem?_mem hsem)

/-- Witness for C3 at the spec's concrete scenario: a grouping over 10
examples that omits index 3 is rejected. -/
theorem setQids_invalid_input_raises_witness :
    ∃ e, setQids 10 [[0, 1, 2, 4, 5, 6, 7, 8, 9]] = .error e :=
  setQids_invalid_input_raises 10 [[0, 1, 2, 4, 5, 6, 7, 8, 9]]
    (Or.inr ⟨3, by decide, by decide⟩)

/-- Counterexample to claim C4 (as stated): a grouping with a duplicate
assignment for index 3 (of 10) does NOT raise a configuration error —
`setQids` returns successfully, with the later assignment having overwritten
the earlier one (`qidlist[3] = 1`). -/
theorem setQids_duplicate_counterexample :
    setQids 10 [[0, 1, 2, 3, 4, 5, 6, 7, 8, 9], [3]]
      = .ok ⟨[0, 0, 0, 1, 0, 0, 0, 0, 0, 0], [[0, 1, 2, 4, 5, 6, 7, 8, 9], [3]]⟩ := by
  rfl

/-- Claim C4 as amended: a query grouping in which some sample index is
assigned to more than one query does not raise; as long as every listed index
is in bounds and non-negative and every training index is assigned to at
least one query, `setQids` returns successfully (the later assignment
silently overwrites the earlier one). -/
theorem setQids_duplicate_no_raise (size : Nat) (qids : List (List Int))
    (hvalid : ∀ q ∈ qids, ∀ j ∈ q, 0 ≤ j ∧ j < (size : Int))
    (hcover : ∀ k, k < size → ∃ q ∈ qids, (k : Int) ∈ q) :
    ∃ info, setQids size qids = .ok info := by
  obtain ⟨ql, hql⟩ := assignQids_ok 0 (List.replicate size (-1)) hvalid
  have hmem : (-1 : Int) ∉ ql := by
    intro hmem
    obtain ⟨k, hkv⟩ := List.mem_iff_getElem?.mp hmem
    have hklen : k < ql.length := by
      by_contra hge
      rw [List.getElem?_eq_none (by omega)] at hkv
      exact absurd hkv (by simp)
    have hlen : ql.length = size := by
      have h2 := assignQids_length hql
      simpa using h2
    have hksize : k < size := hlen ▸ hklen
    have hklt : k < (List.replicate size (-1 : Int)).length := by simpa using hksize
    have hsem := assignQids_getElem hql k hklt
    cases hlast : lastGroupOf qids 0 k with
    | none =>
      obtain ⟨q, hq, hkq⟩ := hcover k hksize
      exact absurd ((lastGroupOf_eq_none 0).mp hlast q hq) (by simpa using hkq)
    | some g =>
      rw [hlast] at hsem
      simp only [Option.elim] at hsem
      rw [hkv] at hsem
      injection hsem with hsem
      omega
  exact ⟨⟨ql, buildIndslist ql⟩, by simp [setQids, hql, hmem]⟩

/-- Witness for the amended C4: index 0 is assigned to both queries, yet
`setQids` succeeds. -/
theorem setQids_duplicate_no_raise_witness :
    ∃ info, setQids 2 [[0, 1], [0]] = .ok info :=
  setQids_duplicate_no_raise 2 [[0, 1], [0]] (by decide) (by decide)

/-- Claim C10: whenever `setQids` returns without raising, the constructed
`indslist` is a partition of the training indices — every `k < size` appears
in exactly one of its groups — and the surviving `qidlist` entry of each
index is the index of the LAST query that listed it (a duplicate listing is
silently overwritten by the later assignment). -/
theorem setQids_partition (size : Nat) (qids : List (List Int)) (info : QidInfo)
    (h : setQids size qids = .ok info) :
    (∀ k, k < size → info.indslist.countP (fun g => k ∈ g) = 1) ∧
    (∀ k, k < size → ∃ g : Nat, lastGroupOf qids 0 k = some g ∧
      info.qidlist[k]? = some ((g : Nat) : Int)) := by
  unfold setQids at h
  cases hassign : assignQids size qids 0 (List.replicate size (-1)) with
  | error e => rw [hassign] at h; simp at h
  | ok ql =>
    rw [hassign] at h
    by_cases hmem : (-1 : Int) ∈ ql
    · simp [hmem] at h
    · simp only [hmem, if_false, Except.ok.injEq] at h
      subst h
      have hlen : ql.length = size := by
        rw [assignQids_length hassign]; simp
      constructor
      · intro k hk
        exact buildIndslist_partition ql k (by omega)
      · intro k hk
        have hklt : k < (List.replicate size (-1 : Int)).length := by simpa using hk
        have hsem := assignQids_getElem hassign k hklt
        cases hlast : lastGroupOf qids 0 k with
        | some g =>
          rw [hlast] at hsem
          exact ⟨g, rfl, by simpa using hsem⟩
        | none =>
          rw [hlast] at hsem
          simp only [Option.elim, List.getElem?_replicate, hk, if_pos] at hsem
          exact absurd (List.getElem?_mem hsem) hmem

/-- Witness for C10 at a concrete grouping: `setQids 3 [[0,1],[2]]` succeeds
and index 2 lies in exactly one group of the resulting `indslist`, with
`qidlist[2] = 1`, the (only) query that listed it. -/
theorem setQids_partition_witness :
    (QidInfo.mk [0, 0, 1] [[0, 1], [2]]).indslist.countP (fun g => 2 ∈ g) = 1 ∧
    ∃ g : Nat, lastGroupOf [[0, 1], [2]] 0 2 = some g ∧
      (QidInfo.mk [0, 0, 1] [[0, 1], [2]]).qidlist[2]? = some ((g : Nat) : Int) := by
  have h := setQids_partition 3 [[0, 1], [2]] ⟨[0, 0, 1], [[0, 1], [2]]⟩ rfl
  exact ⟨h.1 2 (by decide), h.2 2 (by decide)⟩

/-- The entries of the learner's resource pool that `CGRankRLS.loadResources`
consults.  Labels are a 2-d matrix (list of rows) as produced by
`array_tools.as_labelmatrix`; preference pairs are rows of index pairs;
`has_validation` records whether both `VALIDATION_FEATURES` and
`VALIDATION_LABELS` are present. -/
structure ResourcePool where
  train_labels : Option (List (List ℚ))
  train_preferences : Option (List (Nat × Nat))
  train_qids : Option (List (List Int))
  has_validation : Bool

/-- numpy's `Y.shape[1]` for a 2-d label matrix stored as a list of rows (all
rows have the same length). -/
def ncols (Y : List (List ℚ)) : Nat := (Y.headD []).length

/-- The state `loadResources` leaves on the learner when it returns without
raising. -/
structure LoadedConfig where
  Y : Option (List (List ℚ))
  size : Option Nat
  learn_from_labels : Bool
  pairs : Option (List (Nat × Nat))
  qidinfo : Option QidInfo
  early_stop : Bool

/-- The body of `CGRankRLS.loadResources`: if `TRAIN_LABELS` is present, record the labels
and their count and raise on a multi-column label matrix (and install the
early-stopping callback when a validation set is configured); otherwise, if
`TRAIN_PREFERENCES` is present, record the pairs; otherwise raise.  Finally,
if `TRAIN_QIDS` is present, run `setQids` (which may itself raise; in
preference mode `self.size` was never assigned, so the `setQids` call fails). -/
def loadResources (pool : ResourcePool) : Except String LoadedConfig :=
  match pool.train_labels with
  | some Y =>
    if 1 < ncols Y then
      .error "CGRankRLS does not currently work in multi-label mode"
    else
      match pool.train_qids with
      | some qids =>
        match setQids Y.length qids with
        | .ok qi => .ok ⟨some Y, some Y.length, true, none, some qi, pool.has_validation⟩
        | .error e => .error e
      | none => .ok ⟨some Y, some Y.length, true, none, none, pool.has_validation⟩
  | none =>
    match pool.train_preferences with
    | some prefs =>
      match pool.train_qids with
      | some _ => .error "AttributeError: size is only assigned when learning from labels"
      | none => .ok ⟨none, none, false, some prefs, none, false⟩
    | none => .error "Neither labels nor preference information found"

/-- Claim C5: if the training resources supply neither a label vector nor
explicit preference pairs, or supply a label matrix with more than one output
column, `loadResources` raises a configuration error immediately — no
`LoadedConfig` is produced, so no solving can begin. -/
theorem loadResources_config_error (pool : ResourcePool)
    (h : (pool.train_labels = none ∧ pool.train_preferences = none) ∨
         (∃ Y, pool.train_labels = some Y ∧ 1 < ncols Y)) :
    ∃ e, loadResources pool = .error e := by
  rcases h with ⟨hl, hp⟩ | ⟨Y, hl, hc⟩
  · exact ⟨"Neither labels nor preference information found",
      by simp [loadResources, hl, hp]⟩
  · exact ⟨"CGRankRLS does not currently work in multi-label mode",
      by simp [loadResources, hl, hc]⟩

/-- Witness for C5: an empty pool raises, and a pool whose label matrix has
two output columns raises. -/
theorem loadResources_config_error_witness :
    (∃ e, loadResources ⟨none, none, none, false⟩ = .error e) ∧
    (∃ e, loadResources ⟨some [[1, 2]], none, none, false⟩ = .error e) :=
  ⟨loadResources_config_error ⟨none, none, none, false⟩ (Or.inl ⟨rfl, rfl⟩),
   loadResources_config_error ⟨some [[1, 2]], none, none, false⟩
     (Or.inr ⟨[[1, 2]], rfl, by norm_num [ncols]⟩)⟩

end CGRankRLS

namespace EarlyStopCB

/-- The mutable state of an `EarlyStopCB` instance: `bestperf`, `bestA`,
`self.iter` and `self.last_update` (`maxiter`, the patience, is kept as an
explicit argument; its default is 10).  The weight-vector type is abstract. -/
structure ESState (α : Type) where
  bestperf : Option ℚ
  bestA : Option α
  iter : Nat
  lastUpdate : Nat
deriving DecidableEq

/-- The state at construction time: `bestperf = None`, `bestA = None`,
`iter = 0`, `last_update = 0`. -/
def initES (α : Type) : ESState α := ⟨none, none, 0, 0⟩

/-- One invocation of `EarlyStopCB.callback` on a learner whose current weight
vector is `A`, once the validation performance `perf` of `A` has been
computed.  `iserror` is the polarity flag of the measure.  Returns the updated
state together with `some A'` when the callback raises `Finished` after
overwriting the learner's weights with `A'` (the best-seen snapshot), and
`none` when it returns normally.

This is a literal transcription of the branch
`if self.bestperf == None or (self.measure.iserror == (perf < self.bestperf))`
followed by the `if self.last_update == self.maxiter` stop check. -/
def esCallback (iserror : Bool) (maxiter : Nat) (st : ESState α) (A : α) (perf : ℚ) :
    ESState α × Option α :=
  let st' :=
    match st.bestperf with
    | none => { st with bestperf := some perf, bestA := some A, lastUpdate := 0 }
    | some bp =>
      if iserror = decide (perf < bp) then
        { st with bestperf := some perf, bestA := some A, lastUpdate := 0 }
      else
        { st with iter := st.iter + 1, lastUpdate := st.lastUpdate + 1 }
  if st'.lastUpdate = maxiter then (st', some (st'.bestA.getD A)) else (st', none)

/-- The conjugate-gradient iteration loop as seen by the callback: the solver
produces the successive iterates in `l`; after each one it sets `learner.A` to
the iterate and invokes the callback, and if the callback raises `Finished`
the loop terminates immediately (the remaining iterates are never produced).
Returns either `.inl (st, A)` — the loop consumed every iterate, the final
state and final Python-side `learner.A` — or `.inr A'` — the callback raised
`Finished` with the learner's weights rolled back to `A'`.  `perf` scores an
iterate on the validation set. -/
def esProcess (iserror : Bool) (maxiter : Nat) (perf : α → ℚ) :
    List α → ESState α → α → (ESState α × α) ⊕ α
  | [], st, A => .inl (st, A)
  | a :: rest, st, _ =>
    match esCallback iserror maxiter st a (perf a) with
    | (st', none) => esProcess iserror maxiter perf rest st' a
    | (_, some A') => .inr A'

/-- The weight vector `trainWithLabels` ends up with: the solver's final
iterate if `cg` ran to its own termination, or the rolled-back snapshot if the
callback raised `Finished` (the `except Finished: pass` branch keeps the `A`
written by the callback). -/
def runCG (iserror : Bool) (maxiter : Nat) (perf : α → ℚ) (l : List α) (A0 : α) : α :=
  match esProcess iserror maxiter perf l (initES α) A0 with
  | .inl (_, A) => A
  | .inr A' => A'

theorem esProcess_append (iserror : Bool) (maxiter : Nat) (perf : α → ℚ) :
    ∀ (l₁ l₂ : List α) (st : ESState α) (A : α),
      esProcess iserror maxiter perf (l₁ ++ l₂) st A =
        match esProcess iserror maxiter perf l₁ st A with
        | .inl (st', A') => esProcess iserror maxiter perf l₂ st' A'
        | .inr r => .inr r := by
  intro l₁
  induction l₁ with
  | nil => intro l₂ st A; simp [esProcess]
  | cons a l₁ ih =>
    intro l₂ st A
    simp only [List.cons_append, esProcess]
    cases esCallback iserror maxiter st a (perf a) with
    | mk st' sig =>
      cases sig with
      | none => simpa using ih l₂ st' a
      | some A' => simp

theorem esProcess_improving (maxiter : Nat) (hm : 0 < maxiter) (perf : α → ℚ) :
    ∀ (l : List α) (hne : l ≠ []) (st : ESState α) (A0 : α),
      (∀ bp, st.bestperf = some bp → perf (l.head hne) < bp) →
      l.Chain' (fun x y => perf y < perf x) →
      esProcess true maxiter perf l st A0 =
        .inl (⟨some (perf (l.getLast hne)), some (l.getLast hne), st.iter, 0⟩,
          l.getLast hne) := by
  intro l
  induction l with
  | nil => intro hne; exact absurd rfl hne
  | cons a l ih =>
    intro hne st A0 hbest hchain
    simp only [esProcess]
    have h0 : ¬ (0 = maxiter) := by omega
    have hstep : esCallback true maxiter st a (perf a)
        = (⟨some (perf a), some a, st.iter, 0⟩, none) := by
      unfold esCallback
      cases hbp : st.bestperf with
      | none => simp [h0]
      | some bp =>
        have himp : perf a < bp := hbest bp hbp
        simp [himp, h0]
    rw [hstep]
    cases l with
    | nil => simp [esProcess]
    | cons b l' =>
      have hne' : (b :: l') ≠ [] := by simp
      have hab : perf b < perf a := (List.chain'_cons.mp hchain).1
      have hch : (b :: l').Chain' (fun x y => perf y < perf x) :=
        (List.chain'_cons.mp hchain).2
      have hrec := ih hne' ⟨some (perf a), some a, st.iter, 0⟩ a
        (fun bp hbp => by
          simp only [Option.some.injEq] at hbp
          simpa [← hbp] using hab)
        hch
      have hlast : (a :: b :: l').getLast hne = (b :: l').getLast hne' := by
        simp [List.getLast_cons]
      rw [hlast]
      exact hrec

theorem esProcess_stall (maxiter : Nat) (perf : α → ℚ) :
    ∀ (l : List α) (p : ℚ) (b A0 : α) (i u : Nat),
      u < maxiter → l.length = maxiter - u → (∀ x ∈ l, p ≤ perf x) →
      esProcess true maxiter perf l ⟨some p, some b, i, u⟩ A0 = .inr b := by
  intro l
  induction l with
  | nil =>
    intro p b A0 i u hu hlen _
    simp only [List.length_nil] at hlen
    omega
  | cons x l ih =>
    intro p b A0 i u hu hlen hall
    simp only [esProcess]
    have hx : ¬ perf x < p := not_lt.mpr (hall x (List.mem_cons_self _ _))
    have hstep : esCallback true maxiter ⟨some p, some b, i, u⟩ x (perf x)
        = if u + 1 = maxiter then (⟨some p, some b, i + 1, u + 1⟩, some b)
          else (⟨some p, some b, i + 1, u + 1⟩, none) := by
      unfold esCallback
      simp [hx]
    by_cases hstop : u + 1 = maxiter
    · rw [hstep, if_pos hstop]
    · rw [hstep, if_neg hstop]
      exact ih p b x (i + 1) (u + 1) (by omega)
        (by simp only [List.length_cons] at hlen; omega)
        (fun y hy => hall y (List.mem_cons_of_mem _ hy))

/-- Claim C2: with a validation set configured (callback installed with the
default patience `maxiter = 10`, error-type measure), if the validation score
strictly improves along the iterates `pre` and then fails to improve for the
next 10 consecutive iterations (`post`), the callback overwrites the
learner's weight vector with the best-seen snapshot — the last element of
`pre` — and raises `Finished`, which the solver honors: the trained weight
vector is that snapshot, not the iterate current at the halting iteration,
and the iterates in `rest` beyond the halting point are never consumed (the
outcome is the same whether or not they exist). -/
theorem earlyStop_returns_best_snapshot (perf : α → ℚ) (pre post rest : List α) (A0 : α)
    (hne : pre ≠ [])
    (hchain : pre.Chain' (fun x y => perf y < perf x))
    (hlen : post.length = 10)
    (hpost : ∀ x ∈ post, perf (pre.getLast hne) ≤ perf x) :
    runCG true 10 perf (pre ++ (post ++ rest)) A0 = pre.getLast hne ∧
    runCG true 10 perf (pre ++ post) A0 = pre.getLast hne := by
  have hpre := esProcess_improving 10 (by omega) perf pre hne (initES α) A0
    (fun bp hbp => by simp [initES] at hbp) hchain
  have hstall := esProcess_stall 10 perf post (perf (pre.getLast hne))
    (pre.getLast hne) (pre.getLast hne) 0 0 (by omega) (by omega) hpost
  simp only [initES] at hpre
  constructor
  · unfold runCG
    simp only [initES, esProcess_append, hpre, hstall]
  · unfold runCG
    simp only [initES, esProcess_append, hpre, hstall]

/-- Witness for C2: scores (= validation errors, lower is better) improve
along `[3, 2, 1]` and then stall at `5` for exactly 10 iterations; training
returns the snapshot `1` — not the stalled iterate `5`, and not the extra
iterate `9` beyond the halting point. -/
theorem earlyStop_returns_best_snapshot_witness :
    runCG true 10 (fun x : ℚ => x) ([3, 2, 1] ++ (List.replicate 10 5 ++ [9])) 0 = 1 := by
  have h := earlyStop_returns_best_snapshot (fun x : ℚ => x) [3, 2, 1]
    (List.replicate 10 5) [9] 0 (by decide)
    (by norm_num [List.chain'_cons, List.chain'_singleton]) (by decide) (by decide)
  rw [h.1]
  rfl

/-- Claim C9: in `EarlyStopCB.callback`, a new validation score exactly equal
to the best-seen score is treated asymmetrically by polarity.  When
`iserror = False` (higher is better, e.g. `auc`), a tie takes the improvement
branch: best score and snapshot are updated to the current iterate and the
stall counter resets to 0.  When `iserror = True` (lower is better, e.g. the
default `sqmprank`), a tie takes the non-improvement branch: the stall
counter increments and the snapshot is untouched. -/
theorem tie_polarity_asymmetry (maxiter : Nat) (A b : α) (p : ℚ) (i u : Nat) :
    (esCallback false maxiter ⟨some p, some b, i, u⟩ A p).1 = ⟨some p, some A, i, 0⟩ ∧
    (esCallback true maxiter ⟨some p, some b, i, u⟩ A p).1 = ⟨some p, some b, i + 1, u + 1⟩ := by
  have hd : decide (p < p) = false := by simp
  have hfst : ∀ (c : Prop) (inst : Decidable c) (st : ESState α) (x y : Option α),
      (if c then (st, x) else (st, y)).1 = st := by
    intro c inst st x y
    split <;> rfl
  constructor
  · simp only [esCallback, hd, if_true, hfst]
  · simp only [esCallback, hd, hfst]
    rw [if_neg (by simp : ¬ ((true : Bool) = false))]

/-- The per-query scoring loop of `EarlyStopCB.callback` when `qids_valid` is
set: for each validation query, the measure is tried; an
`UndefinedPerformance` exception is caught (`except UndefinedPerformance:
pass`) and the group is skipped, while a successful score is appended to
`perfs`.  The measure is abstracted as a map from a query (validation index
list) to `Except Unit ℚ` — it closes over the fixed `Y_valid` and the current
predictions, and `Except.error` stands for a raised `UndefinedPerformance`. -/
def gatherPerfs (measure : List Nat → Except Unit ℚ) : List (List Nat) → List ℚ
  | [] => []
  | q :: qs =>
    match measure q with
    | .ok p => p :: gatherPerfs measure qs
    | .error _ => gatherPerfs measure qs

/-- The mean `np.mean(perfs)` over the collected scores. -/
def meanScore (l : List ℚ) : ℚ := l.sum / l.length

/-- The averaged per-query validation performance `perf = np.mean(perfs)`
computed by the callback. -/
def validationPerf (measure : List Nat → Except Unit ℚ) (qids : List (List Nat)) : ℚ :=
  meanScore (gatherPerfs measure qids)

theorem gatherPerfs_append (measure : List Nat → Except Unit ℚ) :
    ∀ qs₁ qs₂, gatherPerfs measure (qs₁ ++ qs₂) =
      gatherPerfs measure qs₁ ++ gatherPerfs measure qs₂ := by
  intro qs₁ qs₂
  induction qs₁ with
  | nil => simp [gatherPerfs]
  | cons a l ih =>
    simp only [List.cons_append, gatherPerfs]
    cases measure a with
    | ok p => simpa using ih
    | error e => simpa using ih

/-- Claim C6: a validation query group on which the measure raises
`UndefinedPerformance` is skipped: it contributes nothing to the collected
scores (in particular it does not contribute zero), the error is not
escalated (the scoring loop still returns a value), and the iteration's
validation score is the average of exactly the groups that scored
successfully. -/
theorem undefined_group_excluded (measure : List Nat → Except Unit ℚ)
    (qs₁ qs₂ : List (List Nat)) (q : List Nat) (h : measure q = .error ()) :
    gatherPerfs measure (qs₁ ++ q :: qs₂) =
      gatherPerfs measure qs₁ ++ gatherPerfs measure qs₂ ∧
    validationPerf measure (qs₁ ++ q :: qs₂) = validationPerf measure (qs₁ ++ qs₂) := by
  have hskip : gatherPerfs measure (q :: qs₂) = gatherPerfs measure qs₂ := by
    simp only [gatherPerfs, h]
  constructor
  · rw [gatherPerfs_append, hskip]
  · unfold validationPerf
    rw [gatherPerfs_append, hskip, ← gatherPerfs_append]

/-- A concrete measure with an undefined case, shaped like
`cindex_singletask`: a group with fewer than two members admits no pairs and
raises `UndefinedPerformance`; otherwise it returns a score. -/
def pairMeasure (q : List Nat) : Except Unit ℚ :=
  if q.length < 2 then .error () else .ok (q.length : ℚ)

/-- Witness for C6: the degenerate singleton group `[9]` is skipped and the
averaged score over `[[1,2],[9],[3,4,5]]` equals the average over
`[[1,2],[3,4,5]]`. -/
theorem undefined_group_excluded_witness :
    gatherPerfs pairMeasure ([[1, 2]] ++ [9] :: [[3, 4, 5]]) =
      gatherPerfs pairMeasure [[1, 2]] ++ gatherPerfs pairMeasure [[3, 4, 5]] ∧
    validationPerf pairMeasure ([[1, 2]] ++ [9] :: [[3, 4, 5]]) =
      validationPerf pairMeasure ([[1, 2]] ++ [[3, 4, 5]]) :=
  undefined_group_excluded pairMeasure [[1, 2]] [[3, 4, 5]] [9] rfl

end EarlyStopCB

namespace CGSolver

/-- What `scipy.sparse.linalg.cg` hands back when it returns normally: the
final iterate `x` and the integer convergence flag `info` (`0` means the
tolerance was met; a positive value means the iteration cap was reached
without meeting it). -/
structure CGReturn (α : Type) where
  x : α
  info : Int

/-- The linear model object `getModel` wraps: weight vector plus bias. -/
structure LinearModel (α : Type) where
  A : α
  b : ℚ

/-- The tail of `trainWithLabels` / `trainWithPreferences` once `cg` returns
normally: `self.A = np.mat(cg(G, XLY, callback=cb)[0]).T` — the `[0]`
indexing keeps only the iterate and discards the convergence flag — then
`self.b = 0` and `self.results[MODEL] = self.getModel()`.  No exception is
raised and the flag is stored nowhere. -/
def trainResult (r : CGReturn α) : LinearModel α := ⟨r.x, 0⟩

/-- Counterexample to the observability part of claim C8: with the same
final iterate, a run whose flag reports that the iteration cap was hit
(`info = 99`) yields a model identical to that of a converged run
(`info = 0`), so the caller cannot observe non-convergence through any
returned convergence flag. -/
theorem nonconvergence_flag_not_observable :
    trainResult ⟨(3 : ℚ), 99⟩ = trainResult ⟨(3 : ℚ), 0⟩ := rfl

/-- Claim C8 as amended: when `cg` stops at its iteration cap, training does
not fail — the iterate `cg` returned becomes the model's weight vector, with
zero bias — but the convergence flag is discarded by the `[0]` indexing, so
the outcome is silent: the produced model depends only on the iterate, never
on the flag. -/
theorem nonconvergence_silent (r r' : CGReturn α) (h : r.x = r'.x) :
    trainResult r = ⟨r.x, 0⟩ ∧ trainResult r = trainResult r' :=
  ⟨rfl, by simp [trainResult, h]⟩

/-- Witness for the amended C8: a capped run with flag 7 yields the model of
its iterate, identical to the converged run's model. -/
theorem nonconvergence_silent_witness :
    trainResult ⟨(5 : ℚ), 7⟩ = ⟨(5 : ℚ), 0⟩ ∧
    trainResult ⟨(5 : ℚ), 7⟩ = trainResult ⟨(5 : ℚ), 0⟩ :=
  nonconvergence_silent ⟨5, 7⟩ ⟨5, 0⟩ rfl

end CGSolver

namespace RankingOperator

open scoped Matrix

variable {nf ns m np : Nat}

/-- The group size `len(self.indslist[g])`, the number of training samples in query `g`.
The grouping is represented by the total assignment `grp` of samples to
queries (the function view of the validated `qidlist`). -/
def groupSize (grp : Fin ns → Fin m) (g : Fin m) : Nat :=
  (Finset.univ.filter (fun i => grp i = g)).card

/-- The sparse projection matrix built by `trainWithLabels` in query-grouped
mode: `P[i, qidind] = 1./sqrt(qsize)` for every member `i` of query
`qidind`, and zero elsewhere. -/
noncomputable def Pqids (grp : Fin ns → Fin m) : Matrix (Fin ns) (Fin m) ℝ :=
  Matrix.of fun i g => if grp i = g then 1 / Real.sqrt (groupSize grp g) else 0

/-- The all-pairs projection column built by `trainWithLabels` when no qids
are supplied: `P = 1./sqrt(self.size) * ones((self.size, 1))`. -/
noncomputable def Pall (ns : Nat) : Matrix (Fin ns) (Fin 1) ℝ :=
  Matrix.of fun _ _ => 1 / Real.sqrt ns

/-- The matrix-free operator `mv` of `trainWithLabels`, transcribed product
by product: `X_csr*(X.T*v) - X_csr*(P*(PT*(X.T*v))) + regparam*v`.  Here `X`
is `self.X`, the data matrix stored transposed (features × samples); note
that no `ns × ns` comparison matrix occurs in the expression — only
matrix–vector products. -/
def mvLabels (X : Matrix (Fin nf) (Fin ns) ℝ) (P : Matrix (Fin ns) (Fin m) ℝ)
    (regparam : ℝ) (v : Fin nf → ℝ) : Fin nf → ℝ :=
  X.mulVec (Xᵀ.mulVec v) - X.mulVec (P.mulVec (Pᵀ.mulVec (Xᵀ.mulVec v))) + regparam • v

/-- The signed incidence matrix assembled by `trainWithPreferences` as a COO
matrix: row `r` carries `+1` at column `pairs[r][0]` and `-1` at column
`pairs[r][1]`.  COO construction sums duplicate coordinates, which the `+` of
the two indicator terms reproduces (a degenerate pair `(i, i)` yields a zero
row). -/
def Smat (pairs : Fin np → Fin ns × Fin ns) : Matrix (Fin np) (Fin ns) ℝ :=
  Matrix.of fun r c =>
    (if (pairs r).1 = c then 1 else 0) + (if (pairs r).2 = c then -1 else 0)

/-- The matrix-free operator `mv` of `trainWithPreferences`:
`X_csr * (pairs_csc.T * (pairs_csr * (X.T * vmat))) + regparam * vmat`. -/
def mvPrefs (X : Matrix (Fin nf) (Fin ns) ℝ) (pairs : Fin np → Fin ns × Fin ns)
    (regparam : ℝ) (v : Fin nf → ℝ) : Fin nf → ℝ :=
  X.mulVec ((Smat pairs)ᵀ.mulVec ((Smat pairs).mulVec (Xᵀ.mulVec v))) + regparam • v

theorem mvLabels_eq (X : Matrix (Fin nf) (Fin ns) ℝ) (P : Matrix (Fin ns) (Fin m) ℝ)
    (reg : ℝ) (v : Fin nf → ℝ) :
    mvLabels X P reg v
      = (X * Xᵀ - X * P * Pᵀ * Xᵀ + reg • (1 : Matrix (Fin nf) (Fin nf) ℝ)).mulVec v := by
  unfold mvLabels
  rw [Matrix.add_mulVec, Matrix.sub_mulVec]
  simp [Matrix.mulVec_mulVec, Matrix.smul_mulVec_assoc, Matrix.one_mulVec, Matrix.mul_assoc]

theorem mvPrefs_eq (X : Matrix (Fin nf) (Fin ns) ℝ) (pairs : Fin np → Fin ns × Fin ns)
    (reg : ℝ) (v : Fin nf → ℝ) :
    mvPrefs X pairs reg v
      = (X * (Smat pairs)ᵀ * Smat pairs * Xᵀ + reg • (1 : Matrix (Fin nf) (Fin nf) ℝ)).mulVec v := by
  unfold mvPrefs
  rw [Matrix.add_mulVec]
  simp [Matrix.mulVec_mulVec, Matrix.smul_mulVec_assoc, Matrix.one_mulVec, Matrix.mul_assoc]

/-- Claim C1: for every candidate weight vector `v`, the matrix-free operator
of label-based training returns `(X Xᵀ − X P Pᵀ Xᵀ + λI) v` — with `P` the
single `1/sqrt(n)` ones column in all-pairs mode, and the per-query
`1/sqrt(group size)` indicator columns in query-grouped mode — and the
operator of explicit-pairs training returns `(X Sᵀ S Xᵀ + λI) v` with `S` the
signed incidence matrix of the pairs.  The embedded operators `mvLabels` and
`mvPrefs` are the source's chains of matrix–vector products; no `n × n`
comparison matrix appears in them. -/
theorem operator_is_regularized_hessian (X : Matrix (Fin nf) (Fin ns) ℝ)
    (grp : Fin ns → Fin m) (pairs : Fin np → Fin ns × Fin ns) (reg : ℝ) (v : Fin nf → ℝ) :
    mvLabels X (Pall ns) reg v
      = (X * Xᵀ - X * Pall ns * (Pall ns)ᵀ * Xᵀ + reg • 1).mulVec v ∧
    mvLabels X (Pqids grp) reg v
      = (X * Xᵀ - X * Pqids grp * (Pqids grp)ᵀ * Xᵀ + reg • 1).mulVec v ∧
    mvPrefs X pairs reg v
      = (X * (Smat pairs)ᵀ * Smat pairs * Xᵀ + reg • 1).mulVec v :=
  ⟨mvLabels_eq X (Pall ns) reg v, mvLabels_eq X (Pqids grp) reg v,
    mvPrefs_eq X pairs reg v⟩

theorem Pqids_proj_const (grp : Fin ns → Fin m) (u : Fin ns → ℝ)
    (hu : ∀ i j, grp i = grp j → u i = u j) :
    (Pqids grp).mulVec ((Pqids grp)ᵀ.mulVec u) = u := by
  funext i
  have hpos : 0 < groupSize grp (grp i) :=
    Finset.card_pos.mpr ⟨i, by simp [groupSize]⟩
  have hposR : (0 : ℝ) < (groupSize grp (grp i) : ℝ) := by exact_mod_cast hpos
  have hsqrt : Real.sqrt (groupSize grp (grp i)) * Real.sqrt (groupSize grp (grp i))
      = (groupSize grp (grp i) : ℝ) := Real.mul_self_sqrt (le_of_lt hposR)
  have hsne : Real.sqrt (groupSize grp (grp i)) ≠ 0 := by
    rw [Real.sqrt_ne_zero']
    exact hposR
  have hinner : (Finset.univ.sum fun j =>
        (if grp j = grp i then (1 : ℝ) / Real.sqrt (groupSize grp (grp i)) else 0) * u j)
      = (groupSize grp (grp i) : ℝ) * (1 / Real.sqrt (groupSize grp (grp i)) * u i) := by
    have h1 : (Finset.univ.sum fun j =>
          (if grp j = grp i then (1 : ℝ) / Real.sqrt (groupSize grp (grp i)) else 0) * u j)
        = Finset.sum (Finset.univ.filter fun j => grp j = grp i)
            (fun j => 1 / Real.sqrt (groupSize grp (grp i)) * u j) := by
      rw [Finset.sum_filter]
      exact Finset.sum_congr rfl (fun j _ => by rw [ite_mul, zero_mul])
    rw [h1, Finset.sum_congr rfl
      (fun j hj => by rw [hu j i (Finset.mem_filter.mp hj).2]), Finset.sum_const,
      nsmul_eq_mul]
    rfl
  show (Finset.univ.sum fun g => Pqids grp i g * ((Pqids grp)ᵀ.mulVec u) g) = u i
  have houter : ∀ g, Pqids grp i g * ((Pqids grp)ᵀ.mulVec u) g
      = if grp i = g then (1 / Real.sqrt (groupSize grp g)) * ((Pqids grp)ᵀ.mulVec u) g
        else 0 := by
    intro g
    simp only [Pqids, Matrix.of_apply, ite_mul, zero_mul]
  rw [Finset.sum_congr rfl (fun g _ => houter g), Finset.sum_ite_eq, if_pos (Finset.mem_univ _)]
  have hcol : ((Pqids grp)ᵀ.mulVec u) (grp i)
      = (groupSize grp (grp i) : ℝ) * (1 / Real.sqrt (groupSize grp (grp i)) * u i) := by
    rw [← hinner]
    simp only [Matrix.mulVec, Matrix.dotProduct, Matrix.transpose_apply, Pqids, Matrix.of_apply]
  rw [hcol]
  field_simp

/-- Claim C7 as amended: in query-grouped mode, for every weight vector `v`
whose induced prediction vector `Xᵀ v` is constant within each query group,
the operator returns `λ v`: the within-group centering term annihilates the
predictions and only the regularization term remains. -/
theorem grouped_operator_reg_only (X : Matrix (Fin nf) (Fin ns) ℝ)
    (grp : Fin ns → Fin m) (reg : ℝ) (v : Fin nf → ℝ)
    (hconst : ∀ i j, grp i = grp j → Xᵀ.mulVec v i = Xᵀ.mulVec v j) :
    mvLabels X (Pqids grp) reg v = reg • v := by
  unfold mvLabels
  rw [Pqids_proj_const grp _ hconst]
  simp

/-- Witness for the amended C7: with singleton groups every prediction vector
is per-group constant, and the operator acts as `3 • v`. -/
theorem grouped_operator_reg_only_witness :
    mvLabels (1 : Matrix (Fin 2) (Fin 2) ℝ) (Pqids (fun k : Fin 2 => k)) 3 (fun _ => 1)
      = (3 : ℝ) • (fun _ => (1 : ℝ)) :=
  grouped_operator_reg_only 1 (fun k => k) 3 (fun _ => 1)
    (fun _ _ h => congrArg ((1 : Matrix (Fin 2) (Fin 2) ℝ)ᵀ.mulVec fun _ => (1 : ℝ)) h)

/-- The concrete grouping of the C7 counterexample: one query containing all
four samples. -/
def cgrp : Fin 4 → Fin 1 := fun _ => 0

/-- The concrete data matrix of the C7 counterexample (features × samples):
a diagonal matrix whose predictions `Xᵀ v = (1, 2, 3, 4)` separate the
samples of the single query. -/
def Xc : Matrix (Fin 4) (Fin 4) ℝ :=
  !![1, 0, 0, 0; 0, 2, 0, 0; 0, 0, 3, 0; 0, 0, 0, 4]

/-- The concrete weight vector of the C7 counterexample: the all-ones
vector, which is constant within every group. -/
def cv : Fin 4 → ℝ := fun _ => 1

/-- Counterexample to claim C7 as stated: `cv` is constant within each group
of the query grouping `cgrp`, yet the operator does not return `λ • cv`
(its first component is `-1/2`, not `1`).  The annihilation property holds
for vectors whose prediction `Xᵀ v` is per-group constant, not for per-group
constant weight vectors themselves. -/
theorem grouped_operator_counterexample :
    (∀ i j : Fin 4, cgrp i = cgrp j → cv i = cv j) ∧
    mvLabels Xc (Pqids cgrp) 1 cv ≠ (1 : ℝ) • cv := by
  refine ⟨fun _ _ _ => rfl, fun hcontra => ?_⟩
  have h4 : Real.sqrt ((groupSize cgrp 0 : Nat) : ℝ) = 2 := by
    have hgs : groupSize cgrp (0 : Fin 1) = 4 := rfl
    rw [hgs]
    rw [show ((4 : Nat) : ℝ) = 2 ^ 2 by norm_num]
    exact Real.sqrt_sq (by norm_num)
  have hu : Xcᵀ.mulVec cv = ![1, 2, 3, 4] := by
    funext i
    fin_cases i <;>
      simp [Xc, cv, Matrix.mulVec, Matrix.dotProduct, Fin.sum_univ_four,
        Matrix.transpose_apply, Matrix.vecHead, Matrix.vecTail]
  have hw : (Pqids cgrp)ᵀ.mulVec ![(1 : ℝ), 2, 3, 4] = ![5] := by
    funext g
    fin_cases g
    simp [Pqids, cgrp, Matrix.mulVec, Matrix.dotProduct, Fin.sum_univ_four,
      Matrix.transpose_apply, Matrix.vecHead, Matrix.vecTail, h4]
    norm_num
  have hz : (Pqids cgrp).mulVec ![(5 : ℝ)] = ![5 / 2, 5 / 2, 5 / 2, 5 / 2] := by
    funext i
    fin_cases i <;>
      · simp [Pqids, cgrp, Matrix.mulVec, Matrix.dotProduct, Fin.sum_univ_one,
          Matrix.vecHead, Matrix.vecTail, h4]
        norm_num
  unfold mvLabels at hcontra
  rw [hu, hw, hz] at hcontra
  have h0 := congrFun hcontra 0
  simp [Xc, cv, Matrix.mulVec, Matrix.dotProduct, Fin.sum_univ_four,
    Matrix.vecHead, Matrix.vecTail] at h0
  norm_num at h0

end RankingOperator
